import Mathlib

/-!
Verification of the kernel-assembly, sharding and natural-gradient core of the
TIC-TAC repository (files `asdfghjkl/kernel.py` and `asdfghjkl/operations/linear.py`).

The Python code is shallowly embedded: tensors become functions over `ℕ` or `Fin`
indices into `ℚ` (exact arithmetic stands in for floats), the iterative solvers that
compare square-root-based residual norms are embedded over `ℝ`, stateful loops become
fuel-indexed recursions, and `torch.distributed` collectives on a single logical step
(gather of equally padded stacks, all-to-all of class slices) are embedded by the
association lists they deliver to the reconstruction code.
-/

set_option maxHeartbeats 1600000

/-! ## Sharding: `np.array_split` and the block partition of `_parallel`
(`kernel.py` lines 150-175).  `np.array_split(lst, P)` cuts `lst` into `P`
contiguous shards: the first `len % P` shards have size `len / P + 1`, the rest
have size `len / P`.  `shardStart`/`shardSize` give the closed form of shard `r`. -/

/-- Start offset of shard `r` in `np.array_split` of a length-`L` list into `P` parts. -/
def shardStart (L P r : ℕ) : ℕ := r * (L / P) + min r (L % P)

/-- Size of shard `r` in `np.array_split` of a length-`L` list into `P` parts. -/
def shardSize (L P r : ℕ) : ℕ := L / P + if r < L % P then 1 else 0

/-- `indices_split[rank]` of `_parallel`: the contiguous shard of the index-pair list
owned by worker `r` (`kernel.py` line 154-156). -/
def localIndices {α : Type} (pairs : List α) (P r : ℕ) : List α :=
  (pairs.drop (shardStart pairs.length P r)).take (shardSize pairs.length P r)

/-- The padded local block stack of worker `r` (`kernel.py` lines 159-175): the blocks
computed for the worker's own index pairs, padded with zero-filled placeholder blocks
up to the size of shard 0 (`max_n_blocks = len(indices_split[0])`). -/
def localBlocksPadded {α β : Type} (K : α → β) (zero : β) (pairs : List α) (P r : ℕ) :
    List β :=
  (localIndices pairs P r).map K ++
    List.replicate ((localIndices pairs P 0).length - (localIndices pairs P r).length) zero

/-- `np.triu_indices(n)` as the row-major list of pairs `(i, j)` with `i ≤ j < n`
(`kernel.py` line 144-145). -/
def triuIndices (n : ℕ) : List (ℕ × ℕ) :=
  (List.range n).flatMap fun i =>
    ((List.range n).filter fun j => decide (i ≤ j)).map fun j => (i, j)

/-- The dense table of blocks indexed by `(batch-row, batch-col)` that
`_construct_block_matrix` fills from the gathered per-worker block lists
(`kernel.py` lines 177-181): later writes overwrite earlier ones. -/
def fillTable {β : Type} (assoc : List ((ℕ × ℕ) × β)) (d : ℕ × ℕ → β) : ℕ × ℕ → β :=
  assoc.foldl (fun t pv => Function.update t pv.1 pv.2) d

/-- The association list delivered by the gather collective: for every worker `r` in
rank order, its padded block stack zipped with its index shard (`zip(_local_blocks,
_local_indices)` in `kernel.py` line 180; the zip drops the zero padding because the
index shard is shorter). -/
def gatherAssoc {β : Type} (K : ℕ × ℕ → β) (zero : β) (pairs : List (ℕ × ℕ)) (P : ℕ) :
    List ((ℕ × ℕ) × β) :=
  (List.range P).flatMap fun r =>
    ((localBlocksPadded K zero pairs P r).zip (localIndices pairs P r)).map fun bp =>
      (bp.2, bp.1)

/-! ## Kernel blocks and assembly (`_serial`, `_construct_block_matrix`) -/

/-- A 4-D kernel block `bs × bs × c × c`: arguments are within-block sample indices
`a b` and class indices `c d`. -/
abbrev Block4 : Type := ℕ → ℕ → ℕ → ℕ → ℚ

/-- A 3-D class-diagonal kernel block `bs × bs × c`. -/
abbrev Block3 : Type := ℕ → ℕ → ℕ → ℚ

/-- A 2-D kernel block `bs × bs` (a class slice of a 3-D block). -/
abbrev Block2 : Type := ℕ → ℕ → ℚ

def zeroBlock4 : Block4 := fun _ _ _ _ => 0

def zeroBlock3 : Block3 := fun _ _ _ => 0

def zeroBlock2 : Block2 := fun _ _ => 0

/-- Mirroring of a computed 4-D block: `blocks[j][i].transpose(0, 1).transpose(2, 3)`
(`kernel.py` lines 106-109 and 185-188) — sample transpose plus class swap. -/
def mirroredBlock4 (K : ℕ → ℕ → Block4) (i j : ℕ) : Block4 :=
  fun a b c d => K j i b a d c

/-- Mirroring of a computed 3-D block: only `transpose(0, 1)` (the block is not 4-D,
so `_serial` / `_construct_block_matrix` skip the class swap). -/
def mirroredBlock3 (K : ℕ → ℕ → Block3) (i j : ℕ) : Block3 :=
  fun a b cc => K j i b a cc

/-- The `(i, j)` entry of the serial block table for a single dataset
(`kernel.py` lines 98-112): diagonal and upper-triangular blocks call `kernel_fn`,
lower-triangular blocks mirror the transposed upper block. -/
def blockAt4 (K : ℕ → ℕ → Block4) (i j : ℕ) : Block4 :=
  if i ≤ j then K i j else mirroredBlock4 K i j

/-- 3-D analogue of `blockAt4`. -/
def blockAt3 (K : ℕ → ℕ → Block3) (i j : ℕ) : Block3 :=
  if i ≤ j then K i j else mirroredBlock3 K i j

/-- The kernel assembled by `_serial` in the symmetric (x2 absent) case, read through
the concatenation `torch.cat(rows, dim=0)`: global sample index `I` lives in batch
`I / bs` at offset `I % bs` (all batches have size `bs`). -/
def serialAssembled4 (K : ℕ → ℕ → Block4) (bs : ℕ) : Block4 :=
  fun I J c d => blockAt4 K (I / bs) (J / bs) (I % bs) (J % bs) c d

/-- 3-D analogue of `serialAssembled4` (class-diagonal kernel functions). -/
def serialAssembled3 (K : ℕ → ℕ → Block3) (bs : ℕ) : Block3 :=
  fun I J cc => blockAt3 K (I / bs) (J / bs) (I % bs) (J % bs) cc

/-- Blockwise symmetry of the kernel function, `K(x, y)_{c,d} = K(y, x)_{d,c}`:
block `(i, j)` equals block `(j, i)` with sample and class axes swapped. -/
def BlockSym4 (K : ℕ → ℕ → Block4) : Prop :=
  ∀ i j a b c d, K i j a b c d = K j i b a d c

/-- The block table reconstructed by `_construct_block_matrix` from the gathered
per-worker block lists (`kernel.py` lines 177-181), before mirroring. -/
def gatherTable {β : Type} (Kb : ℕ → ℕ → β) (zero : β) (nb P : ℕ) : ℕ × ℕ → β :=
  fillTable (gatherAssoc (fun pr => Kb pr.1 pr.2) zero (triuIndices nb) P)
    (fun _ => zero)

/-- `_construct_block_matrix` for 4-D blocks: mirror the strict lower triangle from
the gathered upper-triangular table, then concatenate (read through global indices). -/
def constructBlockMatrix4 (T : ℕ × ℕ → Block4) (bs : ℕ) : Block4 :=
  fun I J c d =>
    if I / bs ≤ J / bs then T (I / bs, J / bs) (I % bs) (J % bs) c d
    else T (J / bs, I / bs) (J % bs) (I % bs) d c

/-- `_construct_block_matrix` applied to 2-D (class-sliced) blocks: the mirrored
block is only transposed, there is no class swap. -/
def constructBlockMatrix2 (T : ℕ × ℕ → Block2) (bs : ℕ) : Block2 :=
  fun I J =>
    if I / bs ≤ J / bs then T (I / bs, J / bs) (I % bs) (J % bs)
    else T (J / bs, I / bs) (J % bs) (I % bs)

/-- The full kernel reconstructed under the `master` and `all` gather strategies
(`kernel.py` lines 193-205): every reconstructing rank runs
`_construct_block_matrix` on the same gathered list. -/
def parallelMasterAll4 (K : ℕ → ℕ → Block4) (nb P bs : ℕ) : Block4 :=
  constructBlockMatrix4 (gatherTable K zeroBlock4 nb P) bs

/-- Return value of `_parallel` under `gather_type == 'master'` for a given rank:
rank 0 reconstructs the full matrix, every other rank returns `None`
(`kernel.py` lines 193-200). -/
def parallelMasterResult4 (K : ℕ → ℕ → Block4) (nb P bs rank : ℕ) : Option Block4 :=
  if rank = 0 then some (parallelMasterAll4 K nb P bs) else none

/-- Class slice of a 3-D block (`local_blocks[:, :, :, k]`, `kernel.py` line 215). -/
def sliceClass (b : Block3) (cls : ℕ) : Block2 := fun x y => b x y cls

/-- `classes_split[rank]`: the contiguous class shard of worker `r`
(`kernel.py` line 210). -/
def classesShard (cC P r : ℕ) : List ℕ := localIndices (List.range cC) P r

/-- The full `n × n` kernel for one class, as reconstructed by rank `r` in the
`split` path (`kernel.py` lines 224-228): the gathered stacks are the padded local
stacks sliced at the class (slicing a zero padding block gives a zero 2-D block). -/
def splitClassKernel (K3 : ℕ → ℕ → Block3) (nb P bs cls : ℕ) : Block2 :=
  constructBlockMatrix2
    (fillTable
      (gatherAssoc (fun pr => sliceClass (K3 pr.1 pr.2) cls) zeroBlock2
        (triuIndices nb) P)
      (fun _ => zeroBlock2))
    bs

/-- Return value of `_parallel` under `gather_type == 'split'` for rank `r`
(`kernel.py` lines 207-232): `None` when the class shard is empty, otherwise the
stack of per-class kernels for exactly the shard's classes. -/
def parallelSplitResult (K3 : ℕ → ℕ → Block3) (nb P bs cC r : ℕ) : Option (List Block2) :=
  if (classesShard cC P r).length = 0 then none
  else some ((classesShard cC P r).map (splitClassKernel K3 nb P bs))

/-! ## `batch` input validation (`kernel.py` lines 52-66) -/

/-- Input to `batch`: either a pre-batched loader or a raw tensor (list of samples). -/
inductive BatchInput (α : Type) : Type
  | loader : List (List α) → BatchInput α
  | raw : List α → BatchInput α

/-- Fuel-indexed chunking used to model `DataLoader(TensorDataset(x), batch_size)`. -/
def chunkListAux {α : Type} (bs : ℕ) : ℕ → List α → List (List α)
  | 0, _ => []
  | _, [] => []
  | fuel + 1, xs => xs.take bs :: chunkListAux bs fuel (xs.drop bs)

/-- Split a raw tensor into consecutive batches of size `bs`. -/
def chunkList {α : Type} (bs : ℕ) (xs : List α) : List (List α) :=
  chunkListAux bs xs.length xs

/-- The assertion message of `_get_loader` (`kernel.py` lines 56-57). -/
def getLoaderMsg (n bs : ℕ) : String :=
  "data size (" ++ toString n ++ ") has to be divisible by batch size (" ++
    toString bs ++ ")."

/-- `_get_loader`: pass a loader through, wrap a raw tensor after checking exact
divisibility by the batch size; the assertion is an error result. -/
def getLoader {α : Type} (bs : ℕ) (x : BatchInput α) : Except String (List (List α)) :=
  match x with
  | .loader ls => .ok ls
  | .raw xs =>
      if xs.length % bs = 0 then .ok (chunkList bs xs)
      else .error (getLoaderMsg xs.length bs)

/-- The front of `batch` (`kernel.py` lines 52-71): both loaders are produced before
any kernel computation (`kernelRun`) is reached, so a failed divisibility check
short-circuits to the error. -/
def batchDispatch {α K : Type} (kernelRun : List (List α) → Option (List (List α)) → K)
    (bs : ℕ) (x1 : BatchInput α) (x2 : Option (BatchInput α)) : Except String K := do
  let l1 ← getLoader bs x1
  match x2 with
  | none => pure (kernelRun l1 none)
  | some x =>
      let l2 ← getLoader bs x
      pure (kernelRun l1 (some l2))

/-! ## Linear layer Gram factors (`operations/linear.py`), 2-D case -/

/-- `Linear.gram_A` for 2-D inputs: `in_data1 @ in_data2.T` (lines 82-87). -/
def gram_A {n m fi : ℕ} (in1 : Fin n → Fin fi → ℚ) (in2 : Fin m → Fin fi → ℚ) :
    Fin n → Fin m → ℚ :=
  fun i j => ∑ f, in1 i f * in2 j f

/-- `Linear.gram_B` for 2-D output gradients: `out_grads1 @ out_grads2.T`
(lines 89-94). -/
def gram_B {n m fo : ℕ} (og1 : Fin n → Fin fo → ℚ) (og2 : Fin m → Fin fo → ℚ) :
    Fin n → Fin m → ℚ :=
  fun i j => ∑ o, og1 i o * og2 j o

/-- `Linear.batch_grads_weight` for 2-D arguments: the per-sample outer product
`out_grads.unsqueeze(-1) @ in_data.unsqueeze(-2)` (lines 16-25). -/
def batch_grads_weight {n fi fo : ℕ} (in_data : Fin n → Fin fi → ℚ)
    (out_grads : Fin n → Fin fo → ℚ) : Fin n → Fin fo → Fin fi → ℚ :=
  fun s o f => out_grads s o * in_data s f

/-- Gram matrix of flattened per-sample weight gradients: entry `(i, j)` is the inner
product of sample `i`'s and sample `j`'s flattened `f_out × f_in` gradient. -/
def weightGradGram {n m fi fo : ℕ} (g1 : Fin n → Fin fo → Fin fi → ℚ)
    (g2 : Fin m → Fin fo → Fin fi → ℚ) : Fin n → Fin m → ℚ :=
  fun i j => ∑ o, ∑ f, g1 i o f * g2 j o f

/-! ## Heteroscedastic-regression Hessian (`kernel.py` lines 539-545) -/

/-- `hessian_heteroscedastic_regression`: per-sample 2×2 Hessian from natural
parameters `(η₁, η₂) = (logits[:, 0], logits[:, 1])`. -/
def hessian_heteroscedastic_regression {n : ℕ} (logits : Fin n → Fin 2 → ℚ) :
    Fin n → Matrix (Fin 2) (Fin 2) ℚ :=
  fun i =>
    Matrix.of
      ![![-(1 / 2) / logits i 1,
          1 / 2 * logits i 0 / (logits i 1) ^ 2],
        ![1 / 2 * logits i 0 / (logits i 1) ^ 2,
          1 / 2 / (logits i 1) ^ 2 - 1 / 2 * (logits i 0) ^ 2 / (logits i 1) ^ 3]]

/-! ## Damped Cholesky solves (`kernel.py` lines 884-901) -/

/-- `_add_value_to_diagonal` (`kernel.py` lines 892-901): out-of-place `index_put`
adding `value` to every diagonal entry. -/
def add_value_to_diagonal {ι : Type} [DecidableEq ι] (X : Matrix ι ι ℚ) (value : ℚ) :
    Matrix ι ι ℚ :=
  Matrix.of fun i j => X i j + if i = j then value else 0

/-- Exact matrix inverse `det⁻¹ • adjugate`; stands for `torch.inverse` and for the
`torch.cholesky` / `torch.cholesky_solve` pair (in exact arithmetic both produce the
exact solution of the factored system). -/
def inverseQ {ι : Type} [Fintype ι] [DecidableEq ι] (A : Matrix ι ι ℚ) :
    Matrix ι ι ℚ :=
  A.det⁻¹ • A.adjugate

/-- The fixed `eps = 1e-8` Python default argument of `_cholesky_solve`. -/
def choleskyEps : ℚ := 1 / 100000000

/-- `_cholesky_solve(A, b, eps)` (`kernel.py` lines 884-889): add `eps` to the
diagonal, then solve the augmented system against `b`. -/
def cholesky_solve {ι : Type} [Fintype ι] [DecidableEq ι] (A : Matrix ι ι ℚ)
    (b : ι → ℚ) (eps : ℚ) : ι → ℚ :=
  (inverseQ (add_value_to_diagonal A eps)).mulVec b

/-- `_cholesky_solve` on a 3-D batch of matrices: one independent solve per leading
index (`_add_value_to_diagonal` recurses over the leading axis, `torch.cholesky`
batches). -/
def cholesky_solve_batched {k : ℕ} {ι : Type} [Fintype ι] [DecidableEq ι]
    (A : Fin k → Matrix ι ι ℚ) (b : Fin k → ι → ℚ) (eps : ℚ) : Fin k → ι → ℚ :=
  fun t => cholesky_solve (A t) (b t) eps

/-! ## Natural-gradient solves (`kernel.py` lines 529-536 and 566-608).
Both solvers consume the same per-sample logit Hessian
`logits_hessian_cross_entropy(outputs)` and the same sum-reduction cross-entropy
gradient; the embedding takes these two tensors (`hess`, `gsum`) as inputs, since
`softmax` / `exp` is the only non-algebraic step of the Python code (the direct
solver's mean-reduction gradient is `gsum / n`). -/

/-- The `nc × nc` matrix assembled by `natural_gradient_cross_entropy` for a
class-wise (`ndim == 3`) kernel (`kernel.py` lines 571-584): block `(i, j)` is
`hessian[i] * kernel[i, j].repeat(c, 1)` (entry `(a, d)` equals
`hess[i][a, d] · k[i, j][d]`), the matrix is divided by `n`, then `damping` is added
to the diagonal. -/
def natural_gradient_mat {n c : ℕ} (hess : Fin n → Matrix (Fin c) (Fin c) ℚ)
    (kernelCW : Fin n → Fin n → Fin c → ℚ) (damping : ℚ) :
    Matrix (Fin n × Fin c) (Fin n × Fin c) ℚ :=
  add_value_to_diagonal
    (Matrix.of fun ic jd => hess ic.1 ic.2 jd.2 * kernelCW ic.1 jd.1 jd.2 / (n : ℚ))
    damping

/-- The substitute gradient `v` back-propagated by `natural_gradient_cross_entropy`
(`kernel.py` lines 585-593): `v = torch.inverse(mat) @ grads` reshaped to `n × c`,
where `grads` is the mean-reduction loss gradient `gsum / n`. -/
def natural_gradient_cross_entropy_v {n c : ℕ}
    (hess : Fin n → Matrix (Fin c) (Fin c) ℚ) (kernelCW : Fin n → Fin n → Fin c → ℚ)
    (gsum : Fin n → Fin c → ℚ) (damping : ℚ) : Fin n → Fin c → ℚ :=
  fun i a =>
    (inverseQ (natural_gradient_mat hess kernelCW damping)).mulVec
      (fun jd => gsum jd.1 jd.2 / (n : ℚ)) (i, a)

/-- `logits_second_order_grad_cross_entropy` (`kernel.py` lines 529-536): add
`damping` to the per-sample Hessian, then `_cholesky_solve` it against the
sum-reduction gradient. -/
def logits_second_order_grad_cross_entropy {n c : ℕ}
    (hess : Fin n → Matrix (Fin c) (Fin c) ℚ) (gsum : Fin n → Fin c → ℚ)
    (damping eps : ℚ) : Fin n → Fin c → ℚ :=
  fun i => cholesky_solve (add_value_to_diagonal (hess i) damping) (gsum i) eps

/-- The substitute gradient `v` back-propagated by
`efficient_natural_gradient_cross_entropy` (`kernel.py` lines 596-608): the
curvature-corrected per-sample gradient, then one damped class-kernel solve per
class. -/
def efficient_natural_gradient_cross_entropy_v {n c : ℕ}
    (hess : Fin n → Matrix (Fin c) (Fin c) ℚ)
    (class_kernels : Fin c → Matrix (Fin n) (Fin n) ℚ) (gsum : Fin n → Fin c → ℚ)
    (damping eps : ℚ) : Fin n → Fin c → ℚ :=
  fun i a =>
    cholesky_solve (class_kernels a)
      (fun j => logits_second_order_grad_cross_entropy hess gsum damping eps j a)
      eps i

/-- Concrete data for C2 (`n = 1`, `c = 2`): the per-sample cross-entropy Hessian
`diag(p) − p pᵀ` at logits `(0, 0)`, whose softmax is `(1/2, 1/2)`. -/
def cexHess : Fin 1 → Matrix (Fin 2) (Fin 2) ℚ :=
  fun _ => Matrix.of ![![1 / 4, -(1 / 4)], ![-(1 / 4), 1 / 4]]

/-- Concrete class-wise-decomposable kernel `k₀ = 2`, `k₁ = 3` in `n × n × c`
layout. -/
def cexKernelCW : Fin 1 → Fin 1 → Fin 2 → ℚ := fun _ _ => ![2, 3]

/-- The same kernel in `c × n × n` (class-wise) layout. -/
def cexClassKernels : Fin 2 → Matrix (Fin 1) (Fin 1) ℚ :=
  fun a => Matrix.of fun _ _ => ![2, 3] a

/-- Sum-reduction cross-entropy gradient at logits `(0, 0)` with target class 0:
`softmax − onehot = (−1/2, 1/2)`. -/
def cexGsum : Fin 1 → Fin 2 → ℚ := fun _ => ![-(1 / 2), 1 / 2]

noncomputable section

/-! ## `kernel_free_cross_entropy` (`kernel.py` lines 691-763).
The conjugate-gradient loop is embedded over `ℝ`; the model's kernel-vector product
(`vjp` then `jvp`, `all_reduce`d when distributed) is abstracted as the linear map
`kvp`.  One logical process is modelled (the collectives are identities on it); the
world size enters through the `max_iters` default only. -/

/-- A tensor shaped like the model outputs (`n × c`). -/
abbrev Vec (n c : ℕ) : Type := Fin n → Fin c → ℝ

/-- `torch.sum(a.mul(b))` on `n × c` tensors. -/
def dot2 {n c : ℕ} (u v : Vec n c) : ℝ := ∑ i, ∑ a, u i a * v i a

/-- Loop-carried state of the conjugate-gradient solve: solution `x`, direction `p`,
residual `r`, previous squared residual norm `lastN` and the relative residual
`lastErr` computed by the most recent iteration. -/
structure CGState (n c : ℕ) : Type where
  x : Vec n c
  p : Vec n c
  r : Vec n c
  lastN : ℝ
  lastErr : ℝ

/-- One application of the damped curvature operator
`u = einsum('nij,nj->ni', hessian, kvp(p)) / n_data + damping · p`
(`kernel.py` lines 723-729). -/
def cgApply {n c : ℕ} (kvp : Vec n c → Vec n c)
    (hess : Fin n → Matrix (Fin c) (Fin c) ℝ) (nD : ℕ) (damping : ℝ)
    (p : Vec n c) : Vec n c :=
  fun i a => (∑ b, hess i a b * kvp p i b) / (nD : ℝ) + damping * p i a

/-- One full (non-stopping) iteration of the loop body (`kernel.py` lines 722-750):
update `x` and `r` by `alpha = last_n / ⟨p, u⟩` steps, recompute the squared norm and
relative error, and update the direction `p` by `beta = n / last_n`. -/
def cgStepCont {n c : ℕ} (kvp : Vec n c → Vec n c)
    (hess : Fin n → Matrix (Fin c) (Fin c) ℝ) (nD : ℕ) (damping gNorm : ℝ)
    (s : CGState n c) : CGState n c :=
  let u := cgApply kvp hess nD damping s.p
  let alpha := s.lastN / dot2 s.p u
  let x1 : Vec n c := fun i a => s.x i a + alpha * s.p i a
  let r1 : Vec n c := fun i a => s.r i a - alpha * u i a
  let n1 := dot2 r1 r1
  { x := x1, p := fun i a => r1 i a + (n1 / s.lastN) * s.p i a, r := r1, lastN := n1,
    lastErr := Real.sqrt n1 / gNorm }

/-- `k` unconditional loop iterations. -/
def cgIterate {n c : ℕ} (kvp : Vec n c → Vec n c)
    (hess : Fin n → Matrix (Fin c) (Fin c) ℝ) (nD : ℕ) (damping gNorm : ℝ) :
    ℕ → CGState n c → CGState n c
  | 0, s => s
  | k + 1, s => cgIterate kvp hess nD damping gNorm k (cgStepCont kvp hess nD damping gNorm s)

/-- The `for i in range(max_iters)` loop with the early `break` on `err < tol`
(`kernel.py` lines 722-750): returns the final state, the number of executed
iterations and whether the loop stopped through the tolerance test.  On a `break`
the direction `p` keeps its pre-iteration value (the `break` precedes the `p` and
`last_n` updates); `p` and `lastN` are dead at that point, only `x` is consumed. -/
def cgLoop {n c : ℕ} (kvp : Vec n c → Vec n c)
    (hess : Fin n → Matrix (Fin c) (Fin c) ℝ) (nD : ℕ) (damping gNorm tol : ℝ) :
    ℕ → CGState n c → CGState n c × ℕ × Bool
  | 0, s => (s, 0, false)
  | fuel + 1, s =>
      let s1 := cgStepCont kvp hess nD damping gNorm s
      if s1.lastErr < tol then
        ({ x := s1.x, p := s.p, r := s1.r, lastN := s1.lastN, lastErr := s1.lastErr },
          1, true)
      else
        let rest := cgLoop kvp hess nD damping gNorm tol fuel s1
        (rest.1, rest.2.1 + 1, rest.2.2)

/-- Initial state (`kernel.py` lines 715-721): `x = 0`, `p = r = grads`,
`last_n = ⟨grads, grads⟩`; `lastErr` starts at 0 and is only read after an iteration
has produced it. -/
def cgInit {n c : ℕ} (grads : Vec n c) : CGState n c :=
  { x := fun _ _ => 0, p := grads, r := grads, lastN := dot2 grads grads,
    lastErr := 0 }

/-- Resolution of the `max_iters` default (`kernel.py` lines 699-704): `None` becomes
`n_data · n_classes`, with `n_data` multiplied by the world size when distributed. -/
def kernel_free_max_iters (maxIters : Option ℕ) (nData nClasses : ℕ)
    (isDistributed : Bool) (worldSize : ℕ) : ℕ :=
  match maxIters with
  | none => (if isDistributed then nData * worldSize else nData) * nClasses
  | some m => m

/-- `g_norm = sqrt(⟨grads, grads⟩)` (`kernel.py` lines 710-713). -/
def cgGNorm {n c : ℕ} (grads : Vec n c) : ℝ := Real.sqrt (dot2 grads grads)

/-- The solution back-propagated by `kernel_free_cross_entropy`
(`kernel.py` lines 752-753): the `x` of the final loop state, whether or not the
loop converged (best effort on budget exhaustion). -/
def kernel_free_solution {n c : ℕ} (kvp : Vec n c → Vec n c)
    (hess : Fin n → Matrix (Fin c) (Fin c) ℝ) (nD : ℕ) (damping tol : ℝ)
    (grads : Vec n c) (maxIters : ℕ) : Vec n c :=
  (cgLoop kvp hess nD damping (cgGNorm grads) tol maxIters (cgInit grads)).1.x

/-! ## `kernel_eigenvalues` (`kernel.py` lines 772-867): power iteration with
deflation.  The implicit kernel-vector product (optionally Hessian-weighted) is
abstracted as `kvp`; the `torch.randn_like` draws are the inputs `initVecs`. -/

/-- A flattened iterate shaped like the model outputs. -/
abbrev RVec (m : ℕ) : Type := Fin m → ℝ

/-- Inner product of iterates. -/
def dotR {m : ℕ} (u v : RVec m) : ℝ := ∑ i, u i * v i

/-- Orthogonalisation pass against the accepted eigenvectors
(`kernel.py` lines 804-808): `vec -= ⟨vec, v⟩ · v` for each `v` in acceptance
order. -/
def orthAll {m : ℕ} (prev : List (RVec m)) (vec : RVec m) : RVec m :=
  prev.foldl (fun w v => fun i => w i - dotR w v * v i) vec

/-- Normalisation (`kernel.py` lines 811-814): `vec /= sqrt(⟨vec, vec⟩)`. -/
def normalizeR {m : ℕ} (v : RVec m) : RVec m :=
  fun i => v i / Real.sqrt (dotR v v)

/-- Result of one power-iteration run: the last Rayleigh quotient, the vector that
is appended to `eigvecs`, and whether the run stopped through the `tol` test. -/
structure PowerIterOut (m : ℕ) : Type where
  eigval : ℝ
  vec : RVec m
  byTol : Bool

/-- The inner `for j in range(max_iters)` loop (`kernel.py` lines 802-842).  On a
`tol` stop the appended vector is the orthogonalised, normalised iterate `w` (the
`break` fires before `vec = kernel_vp`); on fuel exhaustion it is the raw
kernel-vector product of the final iteration.  The `j > 0` guard is the `Option`
state of the previous Rayleigh quotient. -/
def powerIterLoop {m : ℕ} (kvp : RVec m → RVec m) (prev : List (RVec m))
    (tol eps : ℝ) : ℕ → RVec m → Option ℝ → PowerIterOut m
  | 0, vec, last => { eigval := last.getD 0, vec := vec, byTol := false }
  | fuel + 1, vec, last =>
      let w := normalizeR (orthAll prev vec)
      let e := dotR (kvp w) w
      match last with
      | some le =>
          if |e - le| / (|le| + eps) < tol then
            { eigval := e, vec := w, byTol := true }
          else powerIterLoop kvp prev tol eps fuel (kvp w) (some e)
      | none => powerIterLoop kvp prev tol eps fuel (kvp w) (some e)

/-- The outer loop over `top_n` eigenpairs (`kernel.py` lines 795-844), accumulating
`(eigval, vec)` pairs in acceptance order; each run is deflated against all
previously accepted vectors. -/
def kernel_eigenvalues_accum {m : ℕ} (kvp : RVec m → RVec m) (maxIters : ℕ)
    (tol eps : ℝ) (initVecs : ℕ → RVec m) : ℕ → List (ℝ × RVec m)
  | 0 => []
  | i + 1 =>
      let acc := kernel_eigenvalues_accum kvp maxIters tol eps initVecs i
      let out := powerIterLoop kvp (acc.map Prod.snd) tol eps maxIters (initVecs i)
        none
      acc ++ [(out.eigval, out.vec)]

/-- Descending order on eigenpairs, by eigenvalue. -/
def eigPairGE {m : ℕ} : (ℝ × RVec m) → (ℝ × RVec m) → Prop := fun a b => b.1 ≤ a.1

instance {m : ℕ} : IsTrans (ℝ × RVec m) eigPairGE :=
  ⟨fun _ _ _ h1 h2 => le_trans h2 h1⟩

instance {m : ℕ} : IsTotal (ℝ × RVec m) eigPairGE :=
  ⟨fun a b => (le_total b.1 a.1).imp id id⟩

instance {m : ℕ} : DecidableRel (@eigPairGE m) := fun a b =>
  inferInstanceAs (Decidable (b.1 ≤ a.1))

/-- `sorted(zip(eigvals, eigvecs))[::-1]` (`kernel.py` line 847): the accumulated
eigenpairs sorted descending by eigenvalue. -/
def kernel_eigenvalues_sorted {m : ℕ} (kvp : RVec m → RVec m) (topN maxIters : ℕ)
    (tol eps : ℝ) (initVecs : ℕ → RVec m) : List (ℝ × RVec m) :=
  List.insertionSort eigPairGE
    (kernel_eigenvalues_accum kvp maxIters tol eps initVecs topN)

end

/-! ## Theorems -/

theorem shardStart_succ (L P r : ℕ) :
    shardStart L P (r + 1) = shardStart L P r + shardSize L P r := by
  unfold shardStart shardSize
  rcases Nat.lt_or_ge r (L % P) with h | h
  · rw [min_eq_left h.le, min_eq_left (Nat.succ_le_of_lt h), if_pos h, Nat.succ_mul]
    omega
  · rw [min_eq_right h, min_eq_right (h.trans (Nat.le_succ r)), if_neg (not_lt.mpr h),
      Nat.succ_mul]
    omega

theorem shardStart_top (L P : ℕ) (hP : 0 < P) : shardStart L P P = L := by
  unfold shardStart
  rw [min_eq_right (Nat.mod_lt _ hP).le]
  exact Nat.div_add_mod L P

theorem shardStart_le (L P m : ℕ) (hP : 0 < P) (hm : m ≤ P) : shardStart L P m ≤ L := by
  have h1 : shardStart L P m ≤ shardStart L P P := by
    unfold shardStart
    exact Nat.add_le_add (Nat.mul_le_mul_right _ hm)
      (min_le_min hm le_rfl)
  rw [shardStart_top L P hP] at h1
  exact h1

theorem shardSize_le_first (L P r : ℕ) : shardSize L P r ≤ shardSize L P 0 := by
  unfold shardSize
  by_cases h : r < L % P
  · rw [if_pos h, if_pos (by omega)]
  · rw [if_neg h]
    by_cases h0 : 0 < L % P
    · rw [if_pos h0]; omega
    · rw [if_neg h0]

theorem shardSize_diff_le_one (L P r s : ℕ) : shardSize L P r ≤ shardSize L P s + 1 := by
  unfold shardSize
  by_cases h : r < L % P <;> by_cases h2 : s < L % P <;> simp [h, h2] <;> omega

theorem localIndices_length {α : Type} (pairs : List α) (P r : ℕ) (hP : 0 < P)
    (hr : r < P) :
    (localIndices pairs P r).length = shardSize pairs.length P r := by
  unfold localIndices
  rw [List.length_take, List.length_drop]
  have h1 : shardStart pairs.length P r + shardSize pairs.length P r ≤ pairs.length := by
    rw [← shardStart_succ]
    exact shardStart_le _ _ _ hP hr
  omega

theorem range_flatMap_localIndices {α : Type} (pairs : List α) (P : ℕ) (hP : 0 < P) :
    (List.range P).flatMap (fun r => localIndices pairs P r) = pairs := by
  have key : ∀ m, (List.range m).flatMap (fun r => localIndices pairs P r) =
      pairs.take (shardStart pairs.length P m) := by
    intro m
    induction m with
    | zero => simp [shardStart]
    | succ k ih =>
        rw [List.range_succ, List.flatMap_append, ih]
        simp only [List.flatMap_cons, List.flatMap_nil, List.append_nil]
        unfold localIndices
        rw [← List.take_add, ← shardStart_succ]
  rw [key P, shardStart_top _ _ hP, List.take_length]

theorem map_append_zip {α β : Type} (K : α → β) (l : List α) (rest : List β) :
    ((l.map K) ++ rest).zip l = l.map fun p => (K p, p) := by
  induction l generalizing rest with
  | nil => simp
  | cons a l ih =>
      simp only [List.map_cons, List.cons_append, List.zip_cons_cons]
      rw [ih]

theorem gatherAssoc_eq {β : Type} (K : ℕ × ℕ → β) (zero : β) (pairs : List (ℕ × ℕ))
    (P : ℕ) (hP : 0 < P) :
    gatherAssoc K zero pairs P = pairs.map fun p => (p, K p) := by
  unfold gatherAssoc
  have hz : ∀ r, (((localBlocksPadded K zero pairs P r).zip
        (localIndices pairs P r)).map fun bp => (bp.2, bp.1)) =
      (localIndices pairs P r).map fun p => (p, K p) := by
    intro r
    unfold localBlocksPadded
    rw [map_append_zip, List.map_map]
    rfl
  simp only [hz]
  rw [← List.map_flatMap, range_flatMap_localIndices pairs P hP]

theorem fillTable_map_apply {β : Type} (f : ℕ × ℕ → β) (l : List (ℕ × ℕ))
    (d : ℕ × ℕ → β) (k : ℕ × ℕ) :
    fillTable (l.map fun p => (p, f p)) d k = if k ∈ l then f k else d k := by
  induction l generalizing d with
  | nil => simp [fillTable]
  | cons p rest ih =>
      show fillTable (rest.map fun q => (q, f q)) (Function.update d p (f p)) k = _
      rw [ih]
      by_cases hk : k ∈ rest
      · simp [hk]
      · by_cases hkp : k = p
        · subst hkp
          simp [hk, Function.update]
        · simp [hk, hkp, Function.update]

theorem mem_triuIndices {n : ℕ} {p : ℕ × ℕ} :
    p ∈ triuIndices n ↔ p.1 ≤ p.2 ∧ p.2 < n := by
  obtain ⟨a, b⟩ := p
  simp only [triuIndices, List.mem_flatMap, List.mem_map, List.mem_filter,
    List.mem_range, decide_eq_true_eq, Prod.mk.injEq]
  constructor
  · rintro ⟨i, hi, j, ⟨hjn, hij⟩, hia, hjb⟩
    subst hia; subst hjb
    exact ⟨hij, hjn⟩
  · rintro ⟨hab, hbn⟩
    exact ⟨a, lt_of_le_of_lt hab hbn, b, ⟨hbn, hab⟩, rfl, rfl⟩

theorem gatherTable_apply {β : Type} (Kb : ℕ → ℕ → β) (zero : β) (nb P : ℕ)
    (hP : 0 < P) (i j : ℕ) (hij : i ≤ j) (hj : j < nb) :
    gatherTable Kb zero nb P (i, j) = Kb i j := by
  unfold gatherTable
  rw [gatherAssoc_eq _ _ _ _ hP, fillTable_map_apply]
  simp [mem_triuIndices, hij, hj]

theorem parallelMasterAll4_eq_serial (K : ℕ → ℕ → Block4) (nb P bs : ℕ) (hP : 0 < P)
    (hbs : 0 < bs) (I J c d : ℕ) (hI : I < nb * bs) (hJ : J < nb * bs) :
    parallelMasterAll4 K nb P bs I J c d = serialAssembled4 K bs I J c d := by
  have hIb : I / bs < nb := Nat.div_lt_of_lt_mul (by rwa [Nat.mul_comm] at hI)
  have hJb : J / bs < nb := Nat.div_lt_of_lt_mul (by rwa [Nat.mul_comm] at hJ)
  unfold parallelMasterAll4 constructBlockMatrix4 serialAssembled4 blockAt4
  by_cases h : I / bs ≤ J / bs
  · rw [if_pos h, if_pos h, gatherTable_apply _ _ _ _ hP _ _ h hJb]
  · rw [if_neg h, if_neg h,
      gatherTable_apply _ _ _ _ hP _ _ (le_of_lt (not_le.mp h)) hIb]
    rfl

theorem splitClassKernel_eq_serial (K3 : ℕ → ℕ → Block3) (nb P bs cls : ℕ)
    (hP : 0 < P) (hbs : 0 < bs) (I J : ℕ) (hI : I < nb * bs) (hJ : J < nb * bs) :
    splitClassKernel K3 nb P bs cls I J = serialAssembled3 K3 bs I J cls := by
  have hIb : I / bs < nb := Nat.div_lt_of_lt_mul (by rwa [Nat.mul_comm] at hI)
  have hJb : J / bs < nb := Nat.div_lt_of_lt_mul (by rwa [Nat.mul_comm] at hJ)
  show constructBlockMatrix2
      (gatherTable (fun i j => sliceClass (K3 i j) cls) zeroBlock2 nb P) bs I J = _
  unfold constructBlockMatrix2 serialAssembled3 blockAt3
  by_cases h : I / bs ≤ J / bs
  · rw [if_pos h, if_pos h, gatherTable_apply _ _ _ _ hP _ _ h hJb]
    rfl
  · rw [if_neg h, if_neg h,
      gatherTable_apply _ _ _ _ hP _ _ (le_of_lt (not_le.mp h)) hIb]
    rfl

theorem serialAssembled4_symm (K : ℕ → ℕ → Block4) (bs : ℕ) (hK : BlockSym4 K)
    (I J c d : ℕ) :
    serialAssembled4 K bs I J c d = serialAssembled4 K bs J I d c := by
  unfold serialAssembled4 blockAt4 mirroredBlock4
  by_cases h1 : I / bs ≤ J / bs
  · by_cases h2 : J / bs ≤ I / bs
    · have h3 : I / bs = J / bs := le_antisymm h1 h2
      rw [if_pos h1, if_pos h2, h3]
      exact hK _ _ _ _ _ _
    · rw [if_pos h1, if_neg h2]
  · rw [if_neg h1, if_pos (le_of_lt (not_le.mp h1))]

theorem getD_map_of_lt {γ δ : Type} (f : γ → δ) (l : List γ) (k : ℕ) (d : γ) (e : δ)
    (hk : k < l.length) : (l.map f).getD k e = f (l.getD k d) := by
  rw [List.getD_eq_getElem?_getD, List.getD_eq_getElem?_getD, List.getElem?_map,
    List.getElem?_eq_getElem hk]
  simp

/-- C1: for a single-dataset request with a blockwise-symmetric `kernel_fn`, the
serial assembly and the distributed (`master`/`all`) reconstruction agree and both
satisfy `K[i, j, c, d] = K[j, i, d, c]`; only upper-triangular `(batch-row,
batch-col)` blocks are handed to `kernel_fn`, and every mirrored block is the
transpose of its computed counterpart with the two class axes additionally swapped. -/
theorem C1_symmetric_kernel_assembly (K : ℕ → ℕ → Block4) (bs nb P : ℕ)
    (hK : BlockSym4 K) (hbs : 0 < bs) (hP : 0 < P)
    (hPL : P ≤ (triuIndices nb).length) :
    (∀ I J c d, serialAssembled4 K bs I J c d = serialAssembled4 K bs J I d c) ∧
    (∀ I J c d, I < nb * bs → J < nb * bs →
      parallelMasterAll4 K nb P bs I J c d = serialAssembled4 K bs I J c d ∧
      parallelMasterAll4 K nb P bs I J c d = parallelMasterAll4 K nb P bs J I d c) ∧
    (∀ p ∈ triuIndices nb, p.1 ≤ p.2) ∧
    (∀ i j, ¬i ≤ j → blockAt4 K i j = mirroredBlock4 K i j) := by
  refine ⟨fun I J c d => serialAssembled4_symm K bs hK I J c d, ?_, ?_, ?_⟩
  · intro I J c d hI hJ
    refine ⟨parallelMasterAll4_eq_serial K nb P bs hP hbs I J c d hI hJ, ?_⟩
    rw [parallelMasterAll4_eq_serial K nb P bs hP hbs I J c d hI hJ,
      parallelMasterAll4_eq_serial K nb P bs hP hbs J I d c hJ hI]
    exact serialAssembled4_symm K bs hK I J c d
  · intro p hp
    exact (mem_triuIndices.mp hp).1
  · intro i j hij
    unfold blockAt4
    rw [if_neg hij]

theorem C1_symmetric_kernel_assembly_witness :
    (∀ I J c d, serialAssembled4 (fun i j a b c d => ((i * j + a * b + c * d : ℕ) : ℚ))
        1 I J c d =
      serialAssembled4 (fun i j a b c d => ((i * j + a * b + c * d : ℕ) : ℚ)) 1 J I d c) ∧
    (∀ I J c d, I < 2 * 1 → J < 2 * 1 →
      parallelMasterAll4 (fun i j a b c d => ((i * j + a * b + c * d : ℕ) : ℚ)) 2 2 1
          I J c d =
        serialAssembled4 (fun i j a b c d => ((i * j + a * b + c * d : ℕ) : ℚ)) 1 I J c d ∧
      parallelMasterAll4 (fun i j a b c d => ((i * j + a * b + c * d : ℕ) : ℚ)) 2 2 1
          I J c d =
        parallelMasterAll4 (fun i j a b c d => ((i * j + a * b + c * d : ℕ) : ℚ)) 2 2 1
          J I d c) ∧
    (∀ p ∈ triuIndices 2, p.1 ≤ p.2) ∧
    (∀ i j, ¬i ≤ j →
      blockAt4 (fun i j a b c d => ((i * j + a * b + c * d : ℕ) : ℚ)) i j =
        mirroredBlock4 (fun i j a b c d => ((i * j + a * b + c * d : ℕ) : ℚ)) i j) := by
  refine C1_symmetric_kernel_assembly _ 1 2 2 ?_ (by decide) (by decide) (by decide)
  intro i j a b c d
  show ((i * j + a * b + c * d : ℕ) : ℚ) = ((j * i + b * a + d * c : ℕ) : ℚ)
  have h : i * j + a * b + c * d = j * i + b * a + d * c := by ring
  rw [h]

/-- C7: the deterministic positional array-split of the `(batch-row, batch-col)`
index pairs: shards are contiguous and rebuild the pair list in rank order, shard
sizes differ pairwise by at most one with shard 0 maximal, and each worker's padded
local block stack has exactly the size of shard 0, so all collectives see uniform
shapes. -/
theorem C7_block_shard_partition_and_padding {β : Type} (pairs : List (ℕ × ℕ))
    (K : ℕ × ℕ → β) (zero : β) (P : ℕ) (hP : 0 < P) :
    ((List.range P).flatMap (fun r => localIndices pairs P r) = pairs) ∧
    (∀ r, localIndices pairs P r =
      (pairs.drop (shardStart pairs.length P r)).take (shardSize pairs.length P r)) ∧
    (∀ r s, shardSize pairs.length P r ≤ shardSize pairs.length P s + 1) ∧
    (∀ r, shardSize pairs.length P r ≤ shardSize pairs.length P 0) ∧
    (∀ r, r < P → (localBlocksPadded K zero pairs P r).length =
      (localIndices pairs P 0).length) ∧
    (∀ r, r < P → (localIndices pairs P r).length = shardSize pairs.length P r) := by
  refine ⟨range_flatMap_localIndices pairs P hP, fun r => rfl,
    fun r s => shardSize_diff_le_one _ _ _ _, fun r => shardSize_le_first _ _ _,
    ?_, fun r hr => localIndices_length pairs P r hP hr⟩
  intro r hr
  unfold localBlocksPadded
  rw [List.length_append, List.length_map, List.length_replicate]
  have h0 : (localIndices pairs P 0).length = shardSize pairs.length P 0 :=
    localIndices_length pairs P 0 hP hP
  have hrl : (localIndices pairs P r).length = shardSize pairs.length P r :=
    localIndices_length pairs P r hP hr
  have hle : shardSize pairs.length P r ≤ shardSize pairs.length P 0 :=
    shardSize_le_first _ _ _
  omega

theorem C7_block_shard_partition_and_padding_witness :
    ((List.range 2).flatMap
        (fun r => localIndices [(0, 0), (0, 1), (0, 2), (1, 1), (1, 2)] 2 r) =
      [(0, 0), (0, 1), (0, 2), (1, 1), (1, 2)]) ∧
    (∀ r, localIndices [(0, 0), (0, 1), (0, 2), (1, 1), (1, 2)] 2 r =
      (([(0, 0), (0, 1), (0, 2), (1, 1), (1, 2)] :
          List (ℕ × ℕ)).drop (shardStart 5 2 r)).take (shardSize 5 2 r)) ∧
    (∀ r s, shardSize 5 2 r ≤ shardSize 5 2 s + 1) ∧
    (∀ r, shardSize 5 2 r ≤ shardSize 5 2 0) ∧
    (∀ r, r < 2 →
      (localBlocksPadded Prod.fst (0 : ℕ) [(0, 0), (0, 1), (0, 2), (1, 1), (1, 2)]
          2 r).length =
        (localIndices [(0, 0), (0, 1), (0, 2), (1, 1), (1, 2)] 2 0).length) ∧
    (∀ r, r < 2 → (localIndices [(0, 0), (0, 1), (0, 2), (1, 1), (1, 2)] 2 r).length =
      shardSize 5 2 r) :=
  C7_block_shard_partition_and_padding [(0, 0), (0, 1), (0, 2), (1, 1), (1, 2)]
    Prod.fst 0 2 (by decide)

/-- C6: distributed `batch` results per rank.  Under `master` gather only rank 0
returns the (correctly reconstructed) full kernel, all other ranks return `None`.
Under `split` gather a rank with an empty class shard returns `None`, and a rank
with a non-empty shard returns exactly one full `n × n` kernel per class of its
shard — the same values the serial assembly yields for that class. -/
theorem C6_distributed_gather_ownership (K3 : ℕ → ℕ → Block3) (K4 : ℕ → ℕ → Block4)
    (nb P bs cC r : ℕ) (hbs : 0 < bs) (hP : 0 < P) (hr : r < P)
    (hPL : P ≤ (triuIndices nb).length) :
    (r ≠ 0 → parallelMasterResult4 K4 nb P bs r = none) ∧
    (∀ k, parallelMasterResult4 K4 nb P bs 0 = some k →
      ∀ I J c d, I < nb * bs → J < nb * bs →
        k I J c d = serialAssembled4 K4 bs I J c d) ∧
    (parallelSplitResult K3 nb P bs cC r = none ↔ classesShard cC P r = []) ∧
    (∀ l, parallelSplitResult K3 nb P bs cC r = some l →
      l.length = (classesShard cC P r).length ∧
      ∀ kk cls, (classesShard cC P r).getD kk 0 = cls →
        kk < (classesShard cC P r).length →
        ∀ I J, I < nb * bs → J < nb * bs →
          (l.getD kk zeroBlock2) I J = serialAssembled3 K3 bs I J cls) := by
  refine ⟨?_, ?_, ?_, ?_⟩
  · intro hne
    unfold parallelMasterResult4
    rw [if_neg hne]
  · intro k hk I J c d hI hJ
    unfold parallelMasterResult4 at hk
    rw [if_pos rfl] at hk
    obtain rfl : parallelMasterAll4 K4 nb P bs = k := Option.some.inj hk
    exact parallelMasterAll4_eq_serial K4 nb P bs hP hbs I J c d hI hJ
  · unfold parallelSplitResult
    by_cases h : (classesShard cC P r).length = 0
    · rw [if_pos h]
      simp [List.length_eq_zero.mp h]
    · rw [if_neg h]
      simp [h, ← List.length_eq_zero]
  · intro l hl
    unfold parallelSplitResult at hl
    by_cases h : (classesShard cC P r).length = 0
    · rw [if_pos h] at hl
      exact absurd hl (by simp)
    · rw [if_neg h] at hl
      obtain rfl : (classesShard cC P r).map (splitClassKernel K3 nb P bs) = l :=
        Option.some.inj hl
      refine ⟨List.length_map _ _, ?_⟩
      intro kk cls hcls hkk I J hI hJ
      rw [getD_map_of_lt _ _ _ 0 _ hkk, hcls]
      exact splitClassKernel_eq_serial K3 nb P bs cls hP hbs I J hI hJ

theorem C6_distributed_gather_ownership_witness :
    ((1 : ℕ) ≠ 0 → parallelMasterResult4 (fun _ _ => zeroBlock4) 2 2 1 1 = none) ∧
    (∀ k, parallelMasterResult4 (fun _ _ => zeroBlock4) 2 2 1 0 = some k →
      ∀ I J c d, I < 2 * 1 → J < 2 * 1 →
        k I J c d = serialAssembled4 (fun _ _ => zeroBlock4) 1 I J c d) ∧
    (parallelSplitResult (fun _ _ => zeroBlock3) 2 2 1 3 1 = none ↔
      classesShard 3 2 1 = []) ∧
    (∀ l, parallelSplitResult (fun _ _ => zeroBlock3) 2 2 1 3 1 = some l →
      l.length = (classesShard 3 2 1).length ∧
      ∀ kk cls, (classesShard 3 2 1).getD kk 0 = cls →
        kk < (classesShard 3 2 1).length →
        ∀ I J, I < 2 * 1 → J < 2 * 1 →
          (l.getD kk zeroBlock2) I J = serialAssembled3 (fun _ _ => zeroBlock3) 1 I J cls) :=
  C6_distributed_gather_ownership (fun _ _ => zeroBlock3) (fun _ _ => zeroBlock4)
    2 2 1 3 1 (by decide) (by decide) (by decide) (by decide)

/-- C9: `batch` with a raw tensor whose length is not exactly divisible by
`batch_size` fails with the precondition error of `_get_loader` before any kernel
computation (the result is that error for every kernel routine, whether the bad
tensor is `x1` or `x2`); with divisible lengths no such error is raised and the
kernel routine receives the chunked loaders. -/
theorem C9_raw_tensor_divisibility {α K : Type} (bs : ℕ) (xs ys : List α) :
    (xs.length % bs ≠ 0 →
      (∀ (kernelRun : List (List α) → Option (List (List α)) → K)
          (x2 : Option (BatchInput α)),
        batchDispatch kernelRun bs (.raw xs) x2 =
          .error (getLoaderMsg xs.length bs)) ∧
      (∀ (kernelRun : List (List α) → Option (List (List α)) → K)
          (ls : List (List α)),
        batchDispatch kernelRun bs (.loader ls) (some (.raw xs)) =
          .error (getLoaderMsg xs.length bs))) ∧
    (xs.length % bs = 0 → ys.length % bs = 0 →
      ∀ (kernelRun : List (List α) → Option (List (List α)) → K),
        batchDispatch kernelRun bs (.raw xs) (some (.raw ys)) =
          .ok (kernelRun (chunkList bs xs) (some (chunkList bs ys))) ∧
        batchDispatch kernelRun bs (.raw xs) none =
          .ok (kernelRun (chunkList bs xs) none)) := by
  constructor
  · intro h
    constructor
    · intro kernelRun x2
      simp [batchDispatch, getLoader, h, Bind.bind, Except.bind]
    · intro kernelRun ls
      simp [batchDispatch, getLoader, h, Bind.bind, Except.bind]
  · intro h1 h2 kernelRun
    constructor
    · simp [batchDispatch, getLoader, h1, h2, Bind.bind, Except.bind, Functor.map,
        Except.map, pure, Except.pure]
    · simp [batchDispatch, getLoader, h1, Bind.bind, Except.bind, pure, Except.pure]

theorem C9_raw_tensor_divisibility_witness :
    ∀ (kernelRun : List (List ℕ) → Option (List (List ℕ)) → List (List ℕ))
      (x2 : Option (BatchInput ℕ)),
      batchDispatch kernelRun 2 (.raw [0, 1, 2]) x2 =
        .error (getLoaderMsg ([0, 1, 2] : List ℕ).length 2) :=
  ((C9_raw_tensor_divisibility 2 [0, 1, 2] ([] : List ℕ)).1 (by decide)).1

/-- C3: for the Linear layer with 2-D per-sample inputs and output gradients, the
Hadamard product of `gram_A` and `gram_B` equals, entry by entry, the Gram matrix of
the flattened per-sample weight gradients of `batch_grads_weight`. -/
theorem C3_gram_hadamard_matches_jacobian_gram {n m fi fo : ℕ}
    (in1 : Fin n → Fin fi → ℚ) (in2 : Fin m → Fin fi → ℚ)
    (og1 : Fin n → Fin fo → ℚ) (og2 : Fin m → Fin fo → ℚ) (i : Fin n) (j : Fin m) :
    gram_A in1 in2 i j * gram_B og1 og2 i j =
      weightGradGram (batch_grads_weight in1 og1) (batch_grads_weight in2 og2) i j := by
  unfold gram_A gram_B weightGradGram batch_grads_weight
  rw [Finset.sum_mul_sum, Finset.sum_comm]
  refine Finset.sum_congr rfl fun o _ => Finset.sum_congr rfl fun f _ => by ring

/-- C5 counterexample: at `η = (1, −2)` the code returns the off-diagonal entry
`H₀₁ = 0.5 · η₁ / η₂² = +0.125`, not the `−0.125` stated by the claim. -/
theorem C5_counterexample :
    hessian_heteroscedastic_regression (fun _ : Fin 1 => ![1, -2]) 0 0 1 = 1 / 8 ∧
    ((1 : ℚ) / 8) ≠ -(1 / 8) := by
  constructor
  · norm_num [hessian_heteroscedastic_regression, Matrix.of_apply]
  · norm_num

/-- C5 amended: `hessian_heteroscedastic_regression` computes per sample the
closed-form 2×2 Hessian `H₀₀ = −0.5/η₂`, `H₀₁ = H₁₀ = 0.5·η₁/η₂²`,
`H₁₁ = 0.5/η₂² − 0.5·η₁²/η₂³`; in particular at `η = (1, −2)` it returns
`H₀₀ = 0.25`, `H₀₁ = H₁₀ = +0.125` and `H₁₁ = 3/16`. -/
theorem C5_hessian_heteroscedastic_formula {n : ℕ} (logits : Fin n → Fin 2 → ℚ)
    (i : Fin n) :
    (hessian_heteroscedastic_regression logits i 0 0 = -(1 / 2) / logits i 1) ∧
    (hessian_heteroscedastic_regression logits i 0 1 =
      1 / 2 * logits i 0 / (logits i 1) ^ 2) ∧
    (hessian_heteroscedastic_regression logits i 1 0 =
      1 / 2 * logits i 0 / (logits i 1) ^ 2) ∧
    (hessian_heteroscedastic_regression logits i 1 1 =
      1 / 2 / (logits i 1) ^ 2 - 1 / 2 * (logits i 0) ^ 2 / (logits i 1) ^ 3) ∧
    (hessian_heteroscedastic_regression (fun _ : Fin 1 => ![1, -2]) 0 =
      Matrix.of ![![1 / 4, 1 / 8], ![1 / 8, 3 / 16]]) := by
  refine ⟨by simp [hessian_heteroscedastic_regression],
    by simp [hessian_heteroscedastic_regression],
    by simp [hessian_heteroscedastic_regression],
    by simp [hessian_heteroscedastic_regression], ?_⟩
  ext a b
  fin_cases a <;> fin_cases b <;>
    norm_num [hessian_heteroscedastic_regression, Matrix.of_apply]

theorem add_value_to_diagonal_eq_add_diagonal {ι : Type} [DecidableEq ι]
    (A : Matrix ι ι ℚ) (e : ℚ) :
    add_value_to_diagonal A e = A + Matrix.diagonal (fun _ => e) := by
  ext i j
  by_cases h : i = j <;>
    simp [add_value_to_diagonal, Matrix.diagonal, Matrix.of_apply, h]

theorem add_value_to_diagonal_posDef {ι : Type} [Fintype ι] [DecidableEq ι]
    (A : Matrix ι ι ℚ) (hA : A.PosDef) (e : ℚ) (he : 0 ≤ e) :
    (add_value_to_diagonal A e).PosDef := by
  rw [add_value_to_diagonal_eq_add_diagonal]
  exact hA.add_posSemidef (Matrix.PosSemidef.diagonal fun i => he)

theorem posDef_det_ne_zero {ι : Type} [Fintype ι] [DecidableEq ι]
    (A : Matrix ι ι ℚ) (hA : A.PosDef) : A.det ≠ 0 := by
  intro h
  obtain ⟨v, hv, hAv⟩ := Matrix.exists_mulVec_eq_zero_iff.mpr h
  have h2 := hA.2 v hv
  rw [hAv] at h2
  simp only [Matrix.dotProduct_zero] at h2
  exact absurd h2 (lt_irrefl 0)

theorem inverseQ_mul_cancel {ι : Type} [Fintype ι] [DecidableEq ι]
    (A : Matrix ι ι ℚ) (h : A.det ≠ 0) : A * inverseQ A = 1 := by
  unfold inverseQ
  rw [Matrix.mul_smul, Matrix.mul_adjugate, smul_smul, inv_mul_cancel₀ h, one_smul]

theorem mul_inverseQ_cancel {ι : Type} [Fintype ι] [DecidableEq ι]
    (A : Matrix ι ι ℚ) (h : A.det ≠ 0) : inverseQ A * A = 1 := by
  unfold inverseQ
  rw [Matrix.smul_mul, Matrix.adjugate_mul, smul_smul, inv_mul_cancel₀ h, one_smul]

theorem inverseQ_mulVec_eq {ι : Type} [Fintype ι] [DecidableEq ι]
    (A : Matrix ι ι ℚ) (h : A.det ≠ 0) (x b : ι → ℚ) (hx : A.mulVec x = b) :
    (inverseQ A).mulVec b = x := by
  rw [← hx, Matrix.mulVec_mulVec, mul_inverseQ_cancel A h, Matrix.one_mulVec]

theorem mulVec_inverseQ_cancel {ι : Type} [Fintype ι] [DecidableEq ι]
    (A : Matrix ι ι ℚ) (h : A.det ≠ 0) (b : ι → ℚ) :
    A.mulVec ((inverseQ A).mulVec b) = b := by
  rw [Matrix.mulVec_mulVec, inverseQ_mul_cancel A h, Matrix.one_mulVec]

/-- C10: for a symmetric positive-definite `A`, `_cholesky_solve(A, b)` returns the
exact solution of `(A + 1e-8·I)x = b`: the fixed `eps = 1e-8` augmentation adds
exactly `1e-8` to every diagonal entry, changes no off-diagonal entry (the
out-of-place `index_put` returns a fresh matrix, `A` itself is untouched), stacks on
top of any caller-supplied damping, and the 3-D batched form solves every batch
entry the same way. -/
theorem C10_cholesky_solve_spd (ι : Type) [Fintype ι] [DecidableEq ι]
    (A : Matrix ι ι ℚ) (b : ι → ℚ) (hA : A.PosDef) :
    (add_value_to_diagonal A choleskyEps).mulVec (cholesky_solve A b choleskyEps) =
      b ∧
    (∀ i j, i ≠ j → add_value_to_diagonal A choleskyEps i j = A i j) ∧
    (∀ i, add_value_to_diagonal A choleskyEps i i = A i i + choleskyEps) ∧
    (∀ damping,
      add_value_to_diagonal (add_value_to_diagonal A damping) choleskyEps =
        add_value_to_diagonal A (damping + choleskyEps)) ∧
    (∀ (k : ℕ) (A3 : Fin k → Matrix ι ι ℚ) (b3 : Fin k → ι → ℚ),
      (∀ t, (A3 t).PosDef) → ∀ t,
        (add_value_to_diagonal (A3 t) choleskyEps).mulVec
          (cholesky_solve_batched A3 b3 choleskyEps t) = b3 t) := by
  have heps : (0 : ℚ) ≤ choleskyEps := by norm_num [choleskyEps]
  have hdet : ∀ (B : Matrix ι ι ℚ), B.PosDef →
      (add_value_to_diagonal B choleskyEps).det ≠ 0 := fun B hB =>
    posDef_det_ne_zero _ (add_value_to_diagonal_posDef B hB choleskyEps heps)
  refine ⟨mulVec_inverseQ_cancel _ (hdet A hA) b, ?_, ?_, ?_, ?_⟩
  · intro i j hij
    simp [add_value_to_diagonal, hij]
  · intro i
    simp [add_value_to_diagonal]
  · intro damping
    ext i j
    by_cases h : i = j <;> simp [add_value_to_diagonal, h] <;> ring
  · intro k A3 b3 hA3 t
    exact mulVec_inverseQ_cancel _ (hdet (A3 t) (hA3 t)) (b3 t)

theorem C10_cholesky_solve_spd_witness :
    (add_value_to_diagonal (Matrix.of ![![(2 : ℚ), 1], ![1, 2]]) choleskyEps).mulVec
      (cholesky_solve (Matrix.of ![![(2 : ℚ), 1], ![1, 2]]) ![1, 0] choleskyEps) =
      ![1, 0] := by
  have hpd : (Matrix.of ![![(2 : ℚ), 1], ![1, 2]]).PosDef := by
    constructor
    · ext i j
      fin_cases i <;> fin_cases j <;> rfl
    · intro x hx
      have hx' : x 0 ≠ 0 ∨ x 1 ≠ 0 := by
        by_contra hcon
        push_neg at hcon
        apply hx
        funext i
        fin_cases i
        · exact hcon.1
        · exact hcon.2
      simp only [Matrix.dotProduct, Matrix.mulVec, Fin.sum_univ_two, Pi.star_apply,
        star_trivial, Matrix.of_apply, Matrix.cons_val_zero, Matrix.cons_val_one,
        Matrix.head_cons]
      rcases hx' with h | h
      · nlinarith [sq_nonneg (x 0 + x 1), sq_nonneg (x 1), mul_self_pos.mpr h]
      · nlinarith [sq_nonneg (x 0 + x 1), sq_nonneg (x 0), mul_self_pos.mpr h]
  exact (C10_cholesky_solve_spd (Fin 2) (Matrix.of ![![(2 : ℚ), 1], ![1, 2]])
    ![1, 0] hpd).1

theorem add_value_to_diagonal_zero {ι : Type} [DecidableEq ι] (X : Matrix ι ι ℚ) :
    add_value_to_diagonal X 0 = X := by
  ext i j
  by_cases h : i = j <;> simp [add_value_to_diagonal, h]

/-- C2 counterexample: with the class-wise-decomposable kernel `k = (2, 3)`, the
softmax Hessian at logits `(0, 0)` and damping `1` for both solvers,
`natural_gradient_cross_entropy` back-propagates `v₀₀ = −2/9` while
`efficient_natural_gradient_cross_entropy` back-propagates
`v₀₀ = −10¹⁶/(300000002 · 200000001) ≈ −1/6`: the two gradient updates differ. -/
theorem C2_counterexample :
    natural_gradient_cross_entropy_v cexHess cexKernelCW cexGsum 1 0 0 = -(2 / 9) ∧
    efficient_natural_gradient_cross_entropy_v cexHess cexClassKernels cexGsum 1
      choleskyEps 0 0 = -(10 ^ 16 / ((300000002 : ℚ) * 200000001)) ∧
    (∀ i j a, cexKernelCW i j a = cexClassKernels a i j) ∧
    -(2 / 9 : ℚ) ≠ -(10 ^ 16 / ((300000002 : ℚ) * 200000001)) := by
  refine ⟨?_, ?_, ?_, by norm_num⟩
  · have hdet : (natural_gradient_mat cexHess cexKernelCW 1).det ≠ 0 := by
      have hinv : natural_gradient_mat cexHess cexKernelCW 1 *
          Matrix.of (fun p q : Fin 1 × Fin 2 =>
            (Matrix.of ![![(7 : ℚ) / 9, 1 / 3], ![2 / 9, 2 / 3]]) p.2 q.2) = 1 := by
        ext p q
        obtain ⟨i, a⟩ := p
        obtain ⟨j, d⟩ := q
        rw [Matrix.mul_apply, Fintype.sum_prod_type]
        fin_cases i <;> fin_cases j <;> fin_cases a <;> fin_cases d <;>
          norm_num [natural_gradient_mat, add_value_to_diagonal, cexHess,
            cexKernelCW, Fin.sum_univ_two, Fin.sum_univ_one, Matrix.one_apply,
            Prod.ext_iff, Fin.ext_iff]
      exact (Matrix.isUnit_det_of_right_inverse hinv).ne_zero
    have hsol : (natural_gradient_mat cexHess cexKernelCW 1).mulVec
        (fun p : Fin 1 × Fin 2 => (![-(2 / 9), 2 / 9] : Fin 2 → ℚ) p.2) =
        (fun jd : Fin 1 × Fin 2 => cexGsum jd.1 jd.2 / ((1 : ℕ) : ℚ)) := by
      funext p
      obtain ⟨i, a⟩ := p
      rw [Matrix.mulVec, Matrix.dotProduct, Fintype.sum_prod_type]
      fin_cases i <;> fin_cases a <;>
        norm_num [natural_gradient_mat, add_value_to_diagonal, cexHess,
          cexKernelCW, cexGsum, Fin.sum_univ_two, Fin.sum_univ_one, Prod.ext_iff,
          Fin.ext_iff]
    show (inverseQ (natural_gradient_mat cexHess cexKernelCW 1)).mulVec _ (0, 0) = _
    rw [inverseQ_mulVec_eq _ hdet _ _ hsol]
    norm_num
  · have hu : logits_second_order_grad_cross_entropy cexHess cexGsum 1 choleskyEps =
        fun _ => ![-(100000000 / 300000002), 100000000 / 300000002] := by
      funext i
      show cholesky_solve (add_value_to_diagonal (cexHess i) 1) (cexGsum i)
        choleskyEps = _
      have hdet2 : (add_value_to_diagonal (add_value_to_diagonal (cexHess i) 1)
          choleskyEps).det ≠ 0 := by
        rw [Matrix.det_fin_two]
        norm_num [add_value_to_diagonal, cexHess, choleskyEps]
      apply inverseQ_mulVec_eq _ hdet2
      funext a
      rw [Matrix.mulVec, Matrix.dotProduct]
      fin_cases a <;>
        norm_num [add_value_to_diagonal, cexHess, cexGsum, choleskyEps,
          Fin.sum_univ_two, Fin.ext_iff]
    have hdet1 : (add_value_to_diagonal (cexClassKernels 0) choleskyEps).det ≠ 0 := by
      rw [Matrix.det_fin_one]
      norm_num [add_value_to_diagonal, cexClassKernels, choleskyEps]
    have h2 : cholesky_solve (cexClassKernels 0)
        (fun _ : Fin 1 =>
          (![-(100000000 / 300000002), 100000000 / 300000002] : Fin 2 → ℚ) 0)
        choleskyEps =
        fun _ : Fin 1 => -(10 ^ 16 / ((300000002 : ℚ) * 200000001)) := by
      apply inverseQ_mulVec_eq _ hdet1
      funext j
      rw [Matrix.mulVec, Matrix.dotProduct]
      fin_cases j
      norm_num [add_value_to_diagonal, cexClassKernels, choleskyEps,
        Fin.sum_univ_one]
    show cholesky_solve (cexClassKernels 0)
        (fun j => logits_second_order_grad_cross_entropy cexHess cexGsum 1
          choleskyEps j 0) choleskyEps 0 = _
    rw [hu]
    exact congrFun h2 0
  · intro i j a
    rfl

/-- C2 amended: the direct and efficient natural-gradient solvers compute the same
substitute gradient `v` on a class-wise-decomposable kernel only in the undamped,
unaugmented regime: with damping 0 and the `_cholesky_solve` augmentation set to 0
(and invertible per-sample Hessians, class kernels and assembled block matrix) the
two coincide; with the code's defaults (any common damping > 0 plus the fixed `1e-8`
augmentation on the efficient path only) they differ, as the counterexample shows. -/
theorem C2_undamped_equivalence {n c : ℕ} (hess : Fin n → Matrix (Fin c) (Fin c) ℚ)
    (kernelCW : Fin n → Fin n → Fin c → ℚ)
    (class_kernels : Fin c → Matrix (Fin n) (Fin n) ℚ) (gsum : Fin n → Fin c → ℚ)
    (hdec : ∀ i j a, kernelCW i j a = class_kernels a i j)
    (hH : ∀ i, (hess i).det ≠ 0) (hK : ∀ a, (class_kernels a).det ≠ 0)
    (hM : (natural_gradient_mat hess kernelCW 0).det ≠ 0) :
    efficient_natural_gradient_cross_entropy_v hess class_kernels gsum 0 0 =
      natural_gradient_cross_entropy_v hess kernelCW gsum 0 := by
  have hu : logits_second_order_grad_cross_entropy hess gsum 0 0 =
      fun i => (inverseQ (hess i)).mulVec (gsum i) := by
    funext i
    show cholesky_solve (add_value_to_diagonal (hess i) 0) (gsum i) 0 = _
    unfold cholesky_solve
    rw [add_value_to_diagonal_zero, add_value_to_diagonal_zero]
  have heff : ∀ d : Fin c,
      (fun j => efficient_natural_gradient_cross_entropy_v hess class_kernels gsum
        0 0 j d) =
      (inverseQ (class_kernels d)).mulVec
        (fun j => (inverseQ (hess j)).mulVec (gsum j) d) := by
    intro d
    funext j
    show cholesky_solve (class_kernels d)
      (fun j' => logits_second_order_grad_cross_entropy hess gsum 0 0 j' d) 0 j = _
    rw [hu]
    unfold cholesky_solve
    rw [add_value_to_diagonal_zero]
  have key : (natural_gradient_mat hess kernelCW 0).mulVec
      (fun jd : Fin n × Fin c =>
        efficient_natural_gradient_cross_entropy_v hess class_kernels gsum 0 0
          jd.1 jd.2) =
      fun jd : Fin n × Fin c => gsum jd.1 jd.2 / (n : ℚ) := by
    funext p
    obtain ⟨i, a⟩ := p
    rw [Matrix.mulVec, Matrix.dotProduct, Fintype.sum_prod_type]
    have hstep : ∀ (j : Fin n) (d : Fin c),
        natural_gradient_mat hess kernelCW 0 (i, a) (j, d) *
          efficient_natural_gradient_cross_entropy_v hess class_kernels gsum 0 0
            j d =
        hess i a d * (class_kernels d i j *
          efficient_natural_gradient_cross_entropy_v hess class_kernels gsum 0 0
            j d) / (n : ℚ) := by
      intro j d
      rw [natural_gradient_mat, add_value_to_diagonal_zero]
      simp only [Matrix.of_apply, hdec]
      ring
    calc ∑ j, ∑ d, natural_gradient_mat hess kernelCW 0 (i, a) (j, d) *
            efficient_natural_gradient_cross_entropy_v hess class_kernels gsum 0 0
              j d
        = ∑ d, ∑ j, hess i a d * (class_kernels d i j *
            efficient_natural_gradient_cross_entropy_v hess class_kernels gsum 0 0
              j d) / (n : ℚ) := by
          rw [Finset.sum_comm]
          exact Finset.sum_congr rfl fun d _ => Finset.sum_congr rfl fun j _ =>
            hstep j d
      _ = (∑ d, hess i a d * (∑ j, class_kernels d i j *
            efficient_natural_gradient_cross_entropy_v hess class_kernels gsum 0 0
              j d)) / (n : ℚ) := by
          rw [Finset.sum_div]
          exact Finset.sum_congr rfl fun d _ => by
            rw [Finset.mul_sum, Finset.sum_div]
      _ = (∑ d, hess i a d * ((inverseQ (hess i)).mulVec (gsum i) d)) / (n : ℚ) := by
          congr 1
          refine Finset.sum_congr rfl fun d _ => ?_
          congr 1
          have h1 : ∑ j, class_kernels d i j *
              efficient_natural_gradient_cross_entropy_v hess class_kernels gsum 0 0
                j d =
              (class_kernels d).mulVec
                (fun j => efficient_natural_gradient_cross_entropy_v hess
                  class_kernels gsum 0 0 j d) i := rfl
          rw [h1, heff d, mulVec_inverseQ_cancel _ (hK d)]
      _ = ((hess i).mulVec ((inverseQ (hess i)).mulVec (gsum i)) a) / (n : ℚ) := rfl
      _ = gsum i a / (n : ℚ) := by rw [mulVec_inverseQ_cancel _ (hH i)]
  funext i a
  show _ = (inverseQ (natural_gradient_mat hess kernelCW 0)).mulVec
    (fun jd : Fin n × Fin c => gsum jd.1 jd.2 / (n : ℚ)) (i, a)
  rw [inverseQ_mulVec_eq _ hM _ _ key]

theorem C2_undamped_equivalence_witness :
    efficient_natural_gradient_cross_entropy_v (fun _ => 1) cexClassKernels cexGsum
      0 0 =
    natural_gradient_cross_entropy_v (fun _ => 1)
      (fun i j a => cexClassKernels a i j) cexGsum 0 := by
  have hM : (natural_gradient_mat (fun _ : Fin 1 => (1 : Matrix (Fin 2) (Fin 2) ℚ))
      (fun i j a => cexClassKernels a i j) 0).det ≠ 0 := by
    have hinv : natural_gradient_mat (fun _ : Fin 1 => (1 : Matrix (Fin 2) (Fin 2) ℚ))
        (fun i j a => cexClassKernels a i j) 0 *
        Matrix.of (fun p q : Fin 1 × Fin 2 =>
          (Matrix.of ![![(1 : ℚ) / 2, 0], ![0, 1 / 3]]) p.2 q.2) = 1 := by
      ext p q
      obtain ⟨i, a⟩ := p
      obtain ⟨j, d⟩ := q
      rw [Matrix.mul_apply, Fintype.sum_prod_type]
      fin_cases i <;> fin_cases j <;> fin_cases a <;> fin_cases d <;>
        norm_num [natural_gradient_mat, add_value_to_diagonal, cexClassKernels,
          Fin.sum_univ_two, Fin.sum_univ_one, Matrix.one_apply, Prod.ext_iff,
          Fin.ext_iff]
    exact (Matrix.isUnit_det_of_right_inverse hinv).ne_zero
  exact C2_undamped_equivalence (fun _ => 1) (fun i j a => cexClassKernels a i j)
    cexClassKernels cexGsum (fun _ _ _ => rfl)
    (fun i => by norm_num [Matrix.det_one])
    (fun a => by fin_cases a <;> norm_num [cexClassKernels, Matrix.det_fin_one]) hM

theorem cgLoop_spec {n c : ℕ} (kvp : Vec n c → Vec n c)
    (hess : Fin n → Matrix (Fin c) (Fin c) ℝ) (nD : ℕ) (damping gNorm tol : ℝ) :
    ∀ (fuel : ℕ) (s0 : CGState n c),
      ((cgLoop kvp hess nD damping gNorm tol fuel s0).2.1 ≤ fuel) ∧
      ((cgLoop kvp hess nD damping gNorm tol fuel s0).2.2 = true →
        (cgLoop kvp hess nD damping gNorm tol fuel s0).1.lastErr < tol ∧
        1 ≤ (cgLoop kvp hess nD damping gNorm tol fuel s0).2.1 ∧
        (cgIterate kvp hess nD damping gNorm
          (cgLoop kvp hess nD damping gNorm tol fuel s0).2.1 s0).lastErr < tol ∧
        (∀ k, k + 1 < (cgLoop kvp hess nD damping gNorm tol fuel s0).2.1 →
          tol ≤ (cgIterate kvp hess nD damping gNorm (k + 1) s0).lastErr)) ∧
      ((cgLoop kvp hess nD damping gNorm tol fuel s0).2.2 = false →
        (cgLoop kvp hess nD damping gNorm tol fuel s0).2.1 = fuel ∧
        (cgLoop kvp hess nD damping gNorm tol fuel s0).1 =
          cgIterate kvp hess nD damping gNorm fuel s0 ∧
        (∀ k, k + 1 ≤ fuel →
          tol ≤ (cgIterate kvp hess nD damping gNorm (k + 1) s0).lastErr)) := by
  intro fuel
  induction fuel with
  | zero =>
      intro s0
      refine ⟨le_rfl, ?_, ?_⟩
      · intro h
        simp [cgLoop] at h
      · intro _
        exact ⟨rfl, rfl, fun k hk => by omega⟩
  | succ f ih =>
      intro s0
      have hiter : ∀ k, cgIterate kvp hess nD damping gNorm (k + 1) s0 =
          cgIterate kvp hess nD damping gNorm k
            (cgStepCont kvp hess nD damping gNorm s0) := fun k => rfl
      by_cases h : (cgStepCont kvp hess nD damping gNorm s0).lastErr < tol
      · have hc1 : (cgLoop kvp hess nD damping gNorm tol (f + 1) s0).2.1 = 1 := by
          simp [cgLoop, h]
        have hc2 : (cgLoop kvp hess nD damping gNorm tol (f + 1) s0).2.2 = true := by
          simp [cgLoop, h]
        have hc3 : (cgLoop kvp hess nD damping gNorm tol (f + 1) s0).1.lastErr =
            (cgStepCont kvp hess nD damping gNorm s0).lastErr := by
          simp [cgLoop, h]
        refine ⟨by omega, ?_, ?_⟩
        · intro _
          refine ⟨by rw [hc3]; exact h, by omega, ?_, ?_⟩
          · rw [hc1, hiter 0]
            exact h
          · intro k hk
            rw [hc1] at hk
            omega
        · intro hfalse
          rw [hc2] at hfalse
          simp at hfalse
      · have hc1 : (cgLoop kvp hess nD damping gNorm tol (f + 1) s0).2.1 =
            (cgLoop kvp hess nD damping gNorm tol f
              (cgStepCont kvp hess nD damping gNorm s0)).2.1 + 1 := by
          simp [cgLoop, h]
        have hc2 : (cgLoop kvp hess nD damping gNorm tol (f + 1) s0).2.2 =
            (cgLoop kvp hess nD damping gNorm tol f
              (cgStepCont kvp hess nD damping gNorm s0)).2.2 := by
          simp [cgLoop, h]
        have hc3 : (cgLoop kvp hess nD damping gNorm tol (f + 1) s0).1 =
            (cgLoop kvp hess nD damping gNorm tol f
              (cgStepCont kvp hess nD damping gNorm s0)).1 := by
          simp [cgLoop, h]
        obtain ⟨ih1, ih2, ih3⟩ := ih (cgStepCont kvp hess nD damping gNorm s0)
        refine ⟨by omega, ?_, ?_⟩
        · intro htrue
          rw [hc2] at htrue
          obtain ⟨ha, hb, hcc, hd⟩ := ih2 htrue
          refine ⟨by rw [hc3]; exact ha, by omega, ?_, ?_⟩
          · rw [hc1, hiter]
            exact hcc
          · intro k hk
            rw [hc1] at hk
            match k with
            | 0 => exact not_lt.mp h
            | k' + 1 =>
                rw [hiter]
                exact hd k' (by omega)
        · intro hfalse
          rw [hc2] at hfalse
          obtain ⟨ha, hb, hcc⟩ := ih3 hfalse
          refine ⟨by omega, by rw [hc3, hb, ← hiter], ?_⟩
          intro k hk
          match k with
          | 0 => exact not_lt.mp h
          | k' + 1 =>
              rw [hiter]
              exact hcc k' (by omega)

/-- C4: the conjugate-gradient loop of `kernel_free_cross_entropy` executes at most
`max_iters` iterations (default `n_data · n_classes`, with `n_data` multiplied by
the world size when distributed); it stops early exactly at the first iteration
whose relative residual `‖r‖ / ‖initial gradient‖` falls below `tol`; exhausting the
budget is not an error — the loop runs all `max_iters` iterations and the
best-effort `x` reached is the solution that is back-propagated. -/
theorem C4_kernel_free_iteration_budget {n c : ℕ} (kvp : Vec n c → Vec n c)
    (hess : Fin n → Matrix (Fin c) (Fin c) ℝ) (nD : ℕ) (damping tol : ℝ)
    (grads : Vec n c) (maxIters : ℕ) :
    ((cgLoop kvp hess nD damping (cgGNorm grads) tol maxIters
        (cgInit grads)).2.1 ≤ maxIters) ∧
    ((cgLoop kvp hess nD damping (cgGNorm grads) tol maxIters
        (cgInit grads)).2.2 = true →
      (cgLoop kvp hess nD damping (cgGNorm grads) tol maxIters
        (cgInit grads)).1.lastErr < tol ∧
      (∀ k, k + 1 < (cgLoop kvp hess nD damping (cgGNorm grads) tol maxIters
          (cgInit grads)).2.1 →
        tol ≤ (cgIterate kvp hess nD damping (cgGNorm grads) (k + 1)
          (cgInit grads)).lastErr)) ∧
    ((cgLoop kvp hess nD damping (cgGNorm grads) tol maxIters
        (cgInit grads)).2.2 = false →
      (cgLoop kvp hess nD damping (cgGNorm grads) tol maxIters
        (cgInit grads)).2.1 = maxIters ∧
      kernel_free_solution kvp hess nD damping tol grads maxIters =
        (cgIterate kvp hess nD damping (cgGNorm grads) maxIters
          (cgInit grads)).x ∧
      (∀ k, k + 1 ≤ maxIters →
        tol ≤ (cgIterate kvp hess nD damping (cgGNorm grads) (k + 1)
          (cgInit grads)).lastErr)) ∧
    (∀ nData nClasses ws : ℕ,
      kernel_free_max_iters none nData nClasses true ws = nData * ws * nClasses) ∧
    (∀ nData nClasses ws : ℕ,
      kernel_free_max_iters none nData nClasses false ws = nData * nClasses) ∧
    (∀ (mi nData nClasses : ℕ) (dist : Bool) (ws : ℕ),
      kernel_free_max_iters (some mi) nData nClasses dist ws = mi) := by
  obtain ⟨h1, h2, h3⟩ := cgLoop_spec kvp hess nD damping (cgGNorm grads) tol
    maxIters (cgInit grads)
  refine ⟨h1, ?_, ?_, ?_, ?_, ?_⟩
  · intro ht
    obtain ⟨ha, _, _, hd⟩ := h2 ht
    exact ⟨ha, hd⟩
  · intro hf
    obtain ⟨ha, hb, hcc⟩ := h3 hf
    refine ⟨ha, ?_, hcc⟩
    show (cgLoop kvp hess nD damping (cgGNorm grads) tol maxIters
      (cgInit grads)).1.x = _
    rw [hb]
  · intro nData nClasses ws
    simp [kernel_free_max_iters]
  · intro nData nClasses ws
    simp [kernel_free_max_iters]
  · intro mi nData nClasses dist ws
    simp [kernel_free_max_iters]

theorem C4_kernel_free_iteration_budget_witness :
    (cgLoop (fun v : Vec 1 1 => v) (fun _ => 1) 1 0
      (cgGNorm ((fun _ _ => 1) : Vec 1 1)) 1 3
      (cgInit ((fun _ _ => 1) : Vec 1 1))).2.1 ≤ 3 :=
  (C4_kernel_free_iteration_budget (fun v : Vec 1 1 => v) (fun _ => 1) 1 0 1
    ((fun _ _ => 1) : Vec 1 1) 3).1

theorem powerIterLoop_byTol_shape {m : ℕ} (kvp : RVec m → RVec m)
    (prev : List (RVec m)) (tol eps : ℝ) :
    ∀ (fuel : ℕ) (vec : RVec m) (last : Option ℝ),
      (powerIterLoop kvp prev tol eps fuel vec last).byTol = true →
      ∃ u, (powerIterLoop kvp prev tol eps fuel vec last).vec =
        normalizeR (orthAll prev u) := by
  intro fuel
  induction fuel with
  | zero =>
      intro vec last h
      simp [powerIterLoop] at h
  | succ f ih =>
      intro vec last h
      match last with
      | none =>
          rw [show powerIterLoop kvp prev tol eps (f + 1) vec none =
            powerIterLoop kvp prev tol eps f
              (kvp (normalizeR (orthAll prev vec)))
              (some (dotR (kvp (normalizeR (orthAll prev vec)))
                (normalizeR (orthAll prev vec)))) from rfl] at h ⊢
          exact ih _ _ h
      | some le =>
          by_cases hc : |dotR (kvp (normalizeR (orthAll prev vec)))
              (normalizeR (orthAll prev vec)) - le| / (|le| + eps) < tol
          · refine ⟨vec, ?_⟩
            simp [powerIterLoop, hc]
          · rw [show powerIterLoop kvp prev tol eps (f + 1) vec (some le) =
              powerIterLoop kvp prev tol eps f
                (kvp (normalizeR (orthAll prev vec)))
                (some (dotR (kvp (normalizeR (orthAll prev vec)))
                  (normalizeR (orthAll prev vec)))) from by
                simp [powerIterLoop, hc]] at h ⊢
            exact ih _ _ h

theorem powerIterLoop_exhaust_shape {m : ℕ} (kvp : RVec m → RVec m)
    (prev : List (RVec m)) (tol eps : ℝ) :
    ∀ (fuel : ℕ) (vec : RVec m) (last : Option ℝ), 1 ≤ fuel →
      (powerIterLoop kvp prev tol eps fuel vec last).byTol = false →
      ∃ u, (powerIterLoop kvp prev tol eps fuel vec last).vec =
        kvp (normalizeR (orthAll prev u)) := by
  intro fuel
  induction fuel with
  | zero =>
      intro vec last h
      omega
  | succ f ih =>
      intro vec last _ h
      match last with
      | none =>
          rw [show powerIterLoop kvp prev tol eps (f + 1) vec none =
            powerIterLoop kvp prev tol eps f
              (kvp (normalizeR (orthAll prev vec)))
              (some (dotR (kvp (normalizeR (orthAll prev vec)))
                (normalizeR (orthAll prev vec)))) from rfl] at h ⊢
          match f with
          | 0 => exact ⟨vec, rfl⟩
          | f' + 1 => exact ih _ _ (by omega) h
      | some le =>
          by_cases hc : |dotR (kvp (normalizeR (orthAll prev vec)))
              (normalizeR (orthAll prev vec)) - le| / (|le| + eps) < tol
          · exfalso
            simp [powerIterLoop, hc] at h
          · rw [show powerIterLoop kvp prev tol eps (f + 1) vec (some le) =
              powerIterLoop kvp prev tol eps f
                (kvp (normalizeR (orthAll prev vec)))
                (some (dotR (kvp (normalizeR (orthAll prev vec)))
                  (normalizeR (orthAll prev vec)))) from by
                simp [powerIterLoop, hc]] at h ⊢
            match f with
            | 0 => exact ⟨vec, rfl⟩
            | f' + 1 => exact ih _ _ (by omega) h

theorem normalizeR_unit {m : ℕ} (w : RVec m) (hw : 0 < dotR w w) :
    dotR (normalizeR w) (normalizeR w) = 1 := by
  unfold normalizeR dotR
  have hs : Real.sqrt (dotR w w) * Real.sqrt (dotR w w) = dotR w w :=
    Real.mul_self_sqrt hw.le
  calc ∑ i, w i / Real.sqrt (dotR w w) * (w i / Real.sqrt (dotR w w))
      = (∑ i, w i * w i) / (Real.sqrt (dotR w w) * Real.sqrt (dotR w w)) := by
        rw [Finset.sum_div]
        exact Finset.sum_congr rfl fun i _ => by rw [div_mul_div_comm]
    _ = 1 := by
        rw [hs]
        exact div_self hw.ne'

/-- C8 counterexample: with `top_n = max_iters = 1` on the 1-dimensional kernel
operator `v ↦ 2v` and initial draw `1`, the single power iteration exhausts
`max_iters` (no `tol` stop) and the returned eigenvector is the raw kernel-vector
product, of squared norm `4 ≠ 1`: the returned eigenvectors are not orthonormal
when an eigenpair's iteration stops by exhausting `max_iters`. -/
theorem C8_counterexample :
    (powerIterLoop (fun v : RVec 1 => fun i => 2 * v i) [] (1 / 1000) (1 / 1000000)
      1 (fun _ => 1) none).byTol = false ∧
    dotR ((kernel_eigenvalues_sorted (fun v : RVec 1 => fun i => 2 * v i) 1 1
        (1 / 1000) (1 / 1000000) (fun _ => fun _ => 1)).headI.2)
      ((kernel_eigenvalues_sorted (fun v : RVec 1 => fun i => 2 * v i) 1 1
        (1 / 1000) (1 / 1000000) (fun _ => fun _ => 1)).headI.2) = 4 ∧
    (4 : ℝ) ≠ 1 := by
  refine ⟨rfl, ?_, by norm_num⟩
  have h1 : (kernel_eigenvalues_sorted (fun v : RVec 1 => fun i => 2 * v i) 1 1
      (1 / 1000) (1 / 1000000) (fun _ => fun _ => 1)).headI.2 =
      fun _ : Fin 1 =>
        2 * ((1 : ℝ) /
          Real.sqrt (dotR (fun _ : Fin 1 => (1 : ℝ)) (fun _ => 1))) := by
    simp [kernel_eigenvalues_sorted, kernel_eigenvalues_accum, powerIterLoop,
      orthAll, normalizeR, List.insertionSort, List.orderedInsert]
  rw [h1]
  simp [dotR, Fin.sum_univ_one, Real.sqrt_one]
  norm_num

/-- C8 amended: `kernel_eigenvalues` returns its eigenpairs sorted descending by
eigenvalue.  An eigenvector accepted through the `tol` stopping criterion is the
Gram-Schmidt-orthogonalised, normalised iterate (and normalisation yields unit norm
whenever the pre-normalisation squared norm is positive); an eigenpair whose power
iteration stops by exhausting `max_iters` instead returns the raw kernel-vector
product of its final iteration, which need not be normalised — so orthonormality is
not guaranteed in that case. -/
theorem C8_eigenpairs_sorted_and_vector_shapes {m : ℕ} (kvp : RVec m → RVec m)
    (topN maxIters : ℕ) (tol eps : ℝ) (initVecs : ℕ → RVec m) :
    List.Sorted eigPairGE
      (kernel_eigenvalues_sorted kvp topN maxIters tol eps initVecs) ∧
    (∀ (prev : List (RVec m)) (fuel : ℕ) (vec : RVec m) (last : Option ℝ),
      (powerIterLoop kvp prev tol eps fuel vec last).byTol = true →
      ∃ u, (powerIterLoop kvp prev tol eps fuel vec last).vec =
        normalizeR (orthAll prev u)) ∧
    (∀ w : RVec m, 0 < dotR w w → dotR (normalizeR w) (normalizeR w) = 1) ∧
    (∀ (prev : List (RVec m)) (fuel : ℕ) (vec : RVec m) (last : Option ℝ),
      1 ≤ fuel →
      (powerIterLoop kvp prev tol eps fuel vec last).byTol = false →
      ∃ u, (powerIterLoop kvp prev tol eps fuel vec last).vec =
        kvp (normalizeR (orthAll prev u))) := by
  refine ⟨?_, ?_, ?_, ?_⟩
  · unfold kernel_eigenvalues_sorted
    exact List.sorted_insertionSort _ _
  · intro prev fuel vec last
    exact powerIterLoop_byTol_shape kvp prev tol eps fuel vec last
  · exact normalizeR_unit
  · intro prev fuel vec last
    exact powerIterLoop_exhaust_shape kvp prev tol eps fuel vec last

theorem C8_eigenpairs_sorted_and_vector_shapes_witness :
    List.Sorted eigPairGE
      (kernel_eigenvalues_sorted (fun v : RVec 1 => v) 2 1 (1 / 1000) (1 / 1000000)
        (fun _ => fun _ => 1)) :=
  (C8_eigenpairs_sorted_and_vector_shapes (fun v : RVec 1 => v) 2 1 (1 / 1000)
    (1 / 1000000) (fun _ => fun _ => 1)).1
